import Mathlib

/-!
Shallow embedding of the couchbase/ghistogram histogram engine.

The embedded code is the `_bins`-based engine (`HistogramBin`, `Histogram`,
the generators, `NewHistogram`, `NewExpHistogram`, `Add`, `Total`, `AddAll`,
`EmitGraph`, `verify`) together with the structurally identical `CbHistogram`
engine of cbghistogram.go and the name-keyed map of ghistogram_map.go.

Modelling conventions:
  * Go `uint64` values are `Nat`, reduced modulo `2 ^ 64` exactly where Go's
    arithmetic wraps (`+=` on counters, the constant-width generator's
    `mg._start += uint64(mg._initial)`).  Note `uint64(int(x))` is the
    identity on `uint64` values, so the `int`/`uint64` round trip of
    `MultipleGenerator._initial` disappears.
  * The two places where the engine computes with `float64`
    (`uint64(float64(x) * binGrowthFactor)` in the multiplicative generator,
    `uint64(math.Pow(power, i))` in the exponential generator) are modelled
    by an arbitrary function `Nat → Nat`: the float computation is
    deterministic, which is all the structural theorems below use.
  * The mutexes and the atomicity of the counter operations are dropped:
    every operation is embedded as the pure state transformer it performs
    under the lock.
  * `bytes.Buffer` output is a `String`; a `nil` buffer argument is the
    empty string, a `nil` prefix is `none`.
-/

namespace GHistogram

/-- `2 ^ 64`, the modulus of Go `uint64` arithmetic. -/
def U64 : Nat := 2 ^ 64

/-- `math.MaxUint64`, the sentinel upper bound of the last bin. -/
def MAXU : Nat := 2 ^ 64 - 1

/-- An individual bin of the histogram structure (`HistogramBin` in
ghistogram.go; `CbHistogramBin` in cbghistogram.go is field-for-field
identical, so a single type embeds both). -/
structure HistogramBin where
  _count : Nat
  _start : Nat
  _end : Nat
  deriving Repr, DecidableEq

/-- `HistogramBin.accepts`: `value >= hb._start && (value < hb._end || value == math.MaxUint64)`. -/
def HistogramBin.accepts (hb : HistogramBin) (value : Nat) : Bool :=
  decide (hb._start ≤ value) && (decide (value < hb._end) || decide (value = MAXU))

/-- The `binGrowthFactor` parameter of `NewHistogram`: the special sentinel
`0.0`, or a factor `> 1.0` whose effect is the deterministic float
computation `x ↦ uint64(float64(x) * binGrowthFactor)`, embedded as `f`. -/
inductive GrowthFactor where
  | zero
  | growth (f : Nat → Nat)

/-- The bins emitted by `MultipleGenerator.getBin` in the `_factor == 0.0`
branch: state `_start = s`, each call returns `[s, s + w mod 2^64)` and
advances `_start` (the increment `w` is `uint64(mg._initial)`, i.e.
`binFirst`). -/
def genZero (w : Nat) : Nat → Nat → List HistogramBin
  | _, 0 => []
  | s, n + 1 => { _count := 0, _start := s, _end := (s + w) % U64 } :: genZero w ((s + w) % U64) n

/-- The bins emitted by `MultipleGenerator.getBin` in the `_factor > 1.0`
branch after the first call: with `_start = s`, each call returns
`[f s, f (f s))` and sets `_start` to `f s`. -/
def genGrow (f : Nat → Nat) : Nat → Nat → List HistogramBin
  | _, 0 => []
  | s, n + 1 => { _count := 0, _start := f s, _end := f (f s) } :: genGrow f (f s) n

/-- All `numBins` bins produced by a fresh `MultipleGenerator` with
`_start = binFirst`, `_initial = int(binFirst)`.  In the growth branch the
first call hits `mg._initial != -1` and returns `[binFirst, f binFirst)`
without touching `_start`. -/
def mulBins (binFirst : Nat) : GrowthFactor → Nat → List HistogramBin
  | .zero, n => genZero binFirst binFirst n
  | .growth _, 0 => []
  | .growth f, n + 1 =>
      { _count := 0, _start := binFirst, _end := f binFirst } :: genGrow f binFirst n

/-- The bins emitted by `ExponentialGenerator.getBin`: with `_start = i`,
each call returns `[p i, p (i + 1))` where `p` models
`x ↦ uint64(math.Pow(_power, float64(x)))`. -/
def genExp (p : Nat → Nat) : Nat → Nat → List HistogramBin
  | _, 0 => []
  | i, n + 1 => { _count := 0, _start := p i, _end := p (i + 1) } :: genExp p (i + 1) n

/-- The first half of `Histogram.completeBinArray`: prepend a
`[0, first_start)` bin when the first generated bin does not start at `0`.
(Go reads `gh._bins[0]` and so panics on an empty bin array; that case is
unreachable for `numBins >= 1` and is embedded as the identity.) -/
def prependFirstBin (bins : List HistogramBin) : List HistogramBin :=
  match bins with
  | [] => bins
  | b :: _ => if 0 < b._start then { _count := 0, _start := 0, _end := b._start } :: bins else bins

/-- The second half of `completeBinArray`: append a `[last_end, MaxUint64)`
bin when the last bin does not already reach `math.MaxUint64`. -/
def appendLastBin (bins1 : List HistogramBin) : List HistogramBin :=
  match bins1.getLast? with
  | none => bins1
  | some bl =>
      if bl._end < MAXU then bins1 ++ [{ _count := 0, _start := bl._end, _end := MAXU }] else bins1

/-- `Histogram.completeBinArray` proper: both phases in order. -/
def completeBinArray (bins : List HistogramBin) : List HistogramBin :=
  appendLastBin (prependFirstBin bins)

/-- The `_bins`-based `Histogram` (name plus bin array; the `sync.Mutex`
field is dropped, see the module comment). -/
structure Histogram where
  _name : String
  _bins : List HistogramBin
  deriving Repr, DecidableEq

/-- `Histogram.verify`: walks the bins checking `start == prev`,
`prev := end`, and finally `prev == math.MaxUint64`. -/
def verifyLoop : Nat → List HistogramBin → Bool
  | prev, [] => decide (prev = MAXU)
  | prev, b :: bs => if b._start = prev then verifyLoop b._end bs else false

/-- `Histogram.verify` on the whole bin array, starting from `prev = 0`. -/
def Histogram.verify (gh : Histogram) : Bool := verifyLoop 0 gh._bins

/-- `NewHistogram(numBins, binFirst, binGrowthFactor)`: fills `numBins` bins
from a `MultipleGenerator` and completes the array.  (The constructor's
`verify` result is discarded by the source.) -/
def newHistogram (numBins binFirst : Nat) (gf : GrowthFactor) : Histogram :=
  { _name := "Histogram", _bins := completeBinArray (mulBins binFirst gf numBins) }

/-- `NewExpHistogram(name, numBins, growthFactor)`: fills `numBins` bins from
an `ExponentialGenerator`; a `growthFactor <= 1.0` is replaced by `2.0`,
which only changes which function `p` embeds the float power computation. -/
def newExpHistogram (name : String) (numBins : Nat) (p : Nat → Nat) : Histogram :=
  { _name := name, _bins := completeBinArray (genExp p 0 numBins) }

/-- `NewCbHistogram(name, n)` from cbghistogram.go: its `fill` runs the
exponential generator with `_power = 2.0` (embedded as `p2`, modelling
`x ↦ uint64(math.Pow(2.0, float64(x)))`) and then inlines exactly the
prepend/append logic of `completeBinArray`. -/
def newCbHistogram (p2 : Nat → Nat) (name : String) (n : Nat) : Histogram :=
  { _name := name, _bins := completeBinArray (genExp p2 0 n) }

/-- `Histogram.findBin`: returns the index of the bin receiving `amount`
(the source returns a pointer into `_bins`; the embedding returns its
index).  `amount == MaxUint64` short-circuits to the last bin; otherwise a
linear scan picks the first bin with `amount < end` (defaulting to the last
bin), re-checked with `accepts`. -/
def findBinIdx (bins : List HistogramBin) (amount : Nat) : Nat :=
  if amount = MAXU then bins.length - 1
  else
    let index := (bins.findIdx? fun b => decide (amount < b._end)).getD (bins.length - 1)
    match bins[index]? with
    | some b => if b.accepts amount then index else bins.length - 1
    | none => bins.length - 1

/-- `HistogramBin.incr` applied to the bin at index `i`: the atomic
`uint64` add wraps modulo `2 ^ 64`. -/
def incrAt : List HistogramBin → Nat → Nat → List HistogramBin
  | [], _, _ => []
  | b :: bs, 0, k => { b with _count := (b._count + k) % U64 } :: bs
  | b :: bs, i + 1, k => b :: incrAt bs i k

/-- `Histogram.Add(amount, count)`: `gh.findBin(amount).incr(count)` under
the lock. -/
def Histogram.Add (gh : Histogram) (amount count : Nat) : Histogram :=
  { gh with _bins := incrAt gh._bins (findBinIdx gh._bins amount) count }

/-- `Histogram.Total`: sums the bin counts into a `uint64` accumulator
(wrapping on overflow). -/
def Histogram.Total (gh : Histogram) : Nat :=
  gh._bins.foldl (fun acc b => (acc + b._count) % U64) 0

/-- A finite sequence of `Add(amount, count)` calls, applied in order. -/
def applyAdds (gh : Histogram) : List (Nat × Nat) → Histogram
  | [] => gh
  | (a, c) :: rest => applyAdds (gh.Add a c) rest

/-- The sum (over `ℕ`) of the `count` arguments of a sequence of `Add` calls. -/
def sumCounts (l : List (Nat × Nat)) : Nat := (l.map Prod.snd).sum

/-- `Histogram.AddAll(src)`: when the bin counts differ the source builds a
`fmt.Errorf` value, immediately discards it (the method returns nothing) and
leaves both histograms alone.  Otherwise it adds `src`'s count into each
destination bin whose `start`/`end` pair matches, then executes
`copy(src._bins, gh._bins)`, overwriting `src`'s bins with the (merged)
destination bins.  The embedding returns the pair (new `gh`, new `src`). -/
def Histogram.AddAll (gh src : Histogram) : Histogram × Histogram :=
  if gh._bins.length ≠ src._bins.length then (gh, src)
  else
    let dstBins := List.zipWith
      (fun d s =>
        if d._start = s._start ∧ d._end = s._end then
          { d with _count := (d._count + s._count) % U64 }
        else d)
      gh._bins src._bins
    ({ gh with _bins := dstBins }, { src with _bins := dstBins })

/-- The range label `fmt.Sprintf("%v - %v", start, end)` (or
`"%v - inf"` when `end == math.MaxUint64`) built for every bin by
`EmitGraph`'s first loop.  All characters are ASCII, so Go's byte length
equals `String.length`. -/
def rangeLabel (b : HistogramBin) : String :=
  if b._end ≠ MAXU then toString b._start ++ " - " ++ toString b._end
  else toString b._start ++ " - inf"

/-- `fmt.Sprintf("%10v", n)` for a `uint64`: decimal digits right-justified
in a field of width 10. -/
def pad10 (n : Nat) : String :=
  String.mk (List.replicate (10 - (toString n).length) ' ') ++ toString n

/-- `Histogram.EmitGraph(prefix, out)`.  The two float computations are
passed in as functions: `pf binCount totalCount` models
`fmt.Sprintf("%7.2f", 100.0*(float64(binCount)/float64(totalCount)))` and
`bw binCount maxCount` models
`int(math.Floor(barLen * (float64(binCount)/float64(maxCount))))`
(`barLen = 30`, the length of the fixed bar glyph string).  Both are only
ever applied in the `binCount != 0` branch, which is also the only place
the source divides.  `out` is the initial buffer contents (a `nil` buffer
is `""`), `pre` the optional per-line prefix. -/
def emitGraph (pf : Nat → Nat → String) (bw : Nat → Nat → Nat)
    (pre : Option String) (out : String) (gh : Histogram) : String :=
  let totalCount := gh._bins.foldl (fun a b => (a + b._count) % U64) 0
  let maxCount := gh._bins.foldl (fun a b => if a < b._count then b._count else a) 0
  let longestRange := gh._bins.foldl
    (fun a b => if 0 < b._count ∧ a < (rangeLabel b).length then (rangeLabel b).length else a) 0
  let out1 := out ++ gh._name ++ " (" ++ toString totalCount ++ " Total)\n"
  gh._bins.foldl
    (fun acc b =>
      if b._count = 0 then acc
      else
        let padding := String.mk (List.replicate (longestRange - (rangeLabel b).length) ' ')
        let acc1 := match pre with | some p => acc ++ p | none => acc
        acc1 ++ "[" ++ rangeLabel b ++ "] " ++ padding ++ pad10 b._count
          ++ " " ++ pf b._count totalCount ++ "%"
          ++ " " ++ String.mk ((List.replicate 30 '#').take (bw b._count maxCount))
          ++ "\n")
    out1

/-- Exact-rational stand-in for the percentage formatting
`fmt.Sprintf("%7.2f", 100.0*(float64(c)/float64(t)))`: the value in
hundredths is `10000 * c / t`.  It agrees with the Go float computation at
every argument pair where that computation is exact (such as `c = t`, the
only pair any theorem below evaluates it at). -/
def fmtPctExact (c t : Nat) : String :=
  let h := 10000 * c / t
  let fr := h % 100
  let s := toString (h / 100) ++ "." ++ (if fr < 10 then "0" else "") ++ toString fr
  String.mk (List.replicate (7 - s.length) ' ') ++ s

/-- Exact-rational stand-in for
`int(math.Floor(30 * (float64(c)/float64(m))))`; agrees with the float
computation wherever it is exact (such as `c = m`). -/
def barWantExact (c m : Nat) : Nat := 30 * c / m

/-! ### The name-keyed histogram map of ghistogram_map.go (src/unnamed/part_002)

`ghistogram_map.go` operates on the repository's *other* `Histogram`
generation, a struct with public `Ranges` and `Counts` slices whose own
definition (and its `CloneEmpty` and `AddAll` methods) is not among the
source files; only this caller and the tests are.  Those missing pieces are
modelled from the spec below and are marked as such.  A Go map is embedded
as an association list; Go's map iteration order is unspecified, so the
list order models one possible iteration order. -/

/-- Modelled from the spec: the `Ranges`/`Counts`-based `Histogram` that
`Histograms.AddAll` operates on (missing from src/) — a name, the bucket
boundary slice `Ranges`, and the parallel count slice `Counts`. -/
structure HistogramRC where
  Name : String
  Ranges : List Nat
  Counts : List Nat
  deriving Repr, DecidableEq

/-- Modelled from the spec: `CloneEmpty` creates "a structurally identical
empty Histogram (same bucket boundaries)" — same `Ranges`, all `Counts`
zero (missing from src/). -/
def HistogramRC.CloneEmpty (h : HistogramRC) : HistogramRC :=
  { h with Counts := h.Counts.map fun _ => 0 }

/-- Modelled from the spec: the `Ranges`/`Counts` `Histogram.AddAll`
(missing from src/) — "each of `self`'s bucket counts becomes
`self_count + src_count`" (`uint64` addition wraps). -/
def HistogramRC.AddAllRC (h src : HistogramRC) : HistogramRC :=
  { h with Counts := List.zipWith (fun a b => (a + b) % U64) h.Counts src.Counts }

/-- `Histograms`: `map[string]*Histogram`, embedded as an association list. -/
abbrev Histograms := List (String × HistogramRC)

/-- Go map assignment `hmap[k] = v`: replace the entry if the key is
present, otherwise add it. -/
def insertH : Histograms → String → HistogramRC → Histograms
  | [], k, v => [(k, v)]
  | (k', v') :: rest, k, v =>
      if k' = k then (k, v) :: rest else (k', v') :: insertH rest k v

/-- The first loop of `Histograms.AddAll`: for each source entry, insert a
`CloneEmpty` when the key is absent, or return the (typo-faithful)
mismatch error when the `Counts`/`Ranges` lengths or any `Ranges` entry
differ.  Errors carry the map state at the moment of the `return`, since
the Go method has already mutated `hmap` in place by then. -/
def phase1 : Histograms → Histograms → Except (Histograms × String) Histograms
  | m, [] => .ok m
  | m, (k, v) :: rest =>
      match List.lookup k m with
      | none => phase1 (insertH m k v.CloneEmpty) rest
      | some d =>
          if d.Counts.length ≠ v.Counts.length ∨ d.Ranges.length ≠ v.Ranges.length then
            .error (m, "Mismatch in histogram creation parameters")
          else if (List.zip d.Ranges v.Ranges).all fun q => decide (q.1 = q.2) then
            phase1 m rest
          else
            .error (m, "Mismatch in histogram creation parmeters")

/-- The second loop of `Histograms.AddAll`: `hmap[k].AddAll(v)` for every
source entry.  (A missing key would be a nil dereference in Go; phase 1
guarantees every source key is present by then.) -/
def phase2 : Histograms → Histograms → Histograms
  | m, [] => m
  | m, (k, v) :: rest =>
      match List.lookup k m with
      | some d => phase2 (insertH m k (d.AddAllRC v)) rest
      | none => phase2 m rest

/-- `Histograms.AddAll(srcmap)`: validation-and-lazy-creation loop, then the
merge loop.  Returns the final map state and the returned `error`
(`none` = `nil`). -/
def Histograms.AddAll (hmap srcmap : Histograms) : Histograms × Option String :=
  match phase1 hmap srcmap with
  | .error (m, e) => (m, some e)
  | .ok m => (phase2 m srcmap, none)

/-! ### Predicates used by the theorems -/

/-- The acceptance condition of claim C5, written exactly from the spec's
words: `value >= start && (value < end || end is the sentinel MAX_UINT64)`.
Compare `HistogramBin.accepts`, whose last disjunct tests
`value == math.MaxUint64` instead. -/
def acceptsSpec (hb : HistogramBin) (value : Nat) : Bool :=
  decide (hb._start ≤ value) && (decide (value < hb._end) || decide (hb._end = MAXU))

/-- Well-typedness of the function embedding the growth factor's float
computation: a Go `uint64` result is at most `math.MaxUint64`. -/
def gfValid : GrowthFactor → Prop
  | .zero => True
  | .growth f => ∀ x, f x ≤ MAXU

/-- The histograms produced by the three constructors (`NewHistogram` with
`numBins >= 1`, `NewExpHistogram`, `NewCbHistogram`), with the `uint64`
well-typedness of the construction parameters and of the embedded float
computations recorded as hypotheses. -/
inductive Constructed : Histogram → Prop where
  | mul (numBins binFirst : Nat) (gf : GrowthFactor) :
      1 ≤ numBins → binFirst ≤ MAXU → gfValid gf →
      Constructed (newHistogram numBins binFirst gf)
  | exp (name : String) (numBins : Nat) (p : Nat → Nat) :
      1 ≤ numBins → (∀ x, p x ≤ MAXU) →
      Constructed (newExpHistogram name numBins p)
  | cb (p2 : Nat → Nat) (name : String) (n : Nat) :
      1 ≤ n → (∀ x, p2 x ≤ MAXU) →
      Constructed (newCbHistogram p2 name n)

/-- Strictly increasing, non-wrapping boundary steps for a
`MultipleGenerator` run of `numBins` bins starting at width `binFirst`:
for the constant-width strategy this says `binFirst >= 1` and the largest
generated boundary `(numBins + 1) * binFirst` does not wrap; for the
growth strategy it says the embedded float step strictly increases (and
stays a `uint64`) on every positive argument. -/
def StrictSteps (numBins binFirst : Nat) : GrowthFactor → Prop
  | .zero => 1 ≤ binFirst ∧ (numBins + 1) * binFirst ≤ MAXU
  | .growth f => 1 ≤ binFirst ∧ ∀ x, 1 ≤ x → x < f x ∧ f x ≤ MAXU

/-! ## Theorems -/

/-- Claim C1 (code bug): `AddAll` on two histograms with identical bucket
boundaries is required to leave `src`'s counts untouched, but the source's
`copy(src._bins, gh._bins)` overwrites them with the merged destination
bins.  Failing input: `dst = NewHistogram(1, 5, 0.0)` after `Add(0, 1)`
(counts `[1,0,0]`), `src` the same shape after `Add(0, 2)` (counts
`[2,0,0]`): after `dst.AddAll(src)` the destination holds the merged
`[3,0,0]` — and so does `src`, instead of its prior `[2,0,0]`. -/
theorem addAll_mutates_src_on_identical_bins :
    (((newHistogram 1 5 GrowthFactor.zero).Add 0 2)._bins.map fun b => b._count) = [2, 0, 0] ∧
    ((Histogram.AddAll ((newHistogram 1 5 GrowthFactor.zero).Add 0 1)
        ((newHistogram 1 5 GrowthFactor.zero).Add 0 2)).2._bins.map fun b => b._count)
      = [3, 0, 0] ∧
    ((Histogram.AddAll ((newHistogram 1 5 GrowthFactor.zero).Add 0 1)
        ((newHistogram 1 5 GrowthFactor.zero).Add 0 2)).1._bins.map fun b => b._count)
      = [3, 0, 0] := by
  decide

/-- Claim C2 (code bug): `AddAll` across histograms with differing bucket
boundaries is required to be a rejected no-op that reports a
structural-mismatch error.  The source instead: (a) on a bin-count
mismatch builds a `fmt.Errorf` value and immediately discards it (the
method has no error return, so nothing is ever reported), and (b) on an
equal-length boundary mismatch silently merges every bin whose boundaries
happen to match and then overwrites `src` with the destination bins.
Failing input: `dst = NewHistogram(1, 5, 0.0)` (bins
`[0,5) [5,10) [10,max]`, counts zero) merged with a well-formed `src` with
bins `[0,5) [5,12) [12,max]` and counts `[7,1,1]`: the destination's first
bin count becomes `7` and `src`'s bins become the destination's. -/
theorem addAll_partial_merge_no_error_on_mismatch :
    ((Histogram.AddAll (newHistogram 1 5 GrowthFactor.zero)
        { _name := "src", _bins := [⟨7, 0, 5⟩, ⟨1, 5, 12⟩, ⟨1, 12, MAXU⟩] }).1._bins.map
          fun b => b._count) = [7, 0, 0] ∧
    (Histogram.AddAll (newHistogram 1 5 GrowthFactor.zero)
        { _name := "src", _bins := [⟨7, 0, 5⟩, ⟨1, 5, 12⟩, ⟨1, 12, MAXU⟩] }).2._bins
      = (Histogram.AddAll (newHistogram 1 5 GrowthFactor.zero)
          { _name := "src", _bins := [⟨7, 0, 5⟩, ⟨1, 5, 12⟩, ⟨1, 12, MAXU⟩] }).1._bins := by
  decide

/-- Claim C5, counterexample: for the (non-sentinel) bin `[0, 5)` and
`value = MAX_UINT64`, the code's `accepts` returns `true` (its last
disjunct tests the *value*, not the bin's end, against the sentinel), while
the claim's condition is false. -/
theorem accepts_spec_mismatch_counterexample :
    HistogramBin.accepts ⟨0, 0, 5⟩ MAXU = true ∧ acceptsSpec ⟨0, 0, 5⟩ MAXU = false := by
  decide

/-- Claim C5 as amended: `accepts(value)` returns `true` exactly when
`value >= start` and either `value < end` or `value` itself is
`MAX_UINT64`. -/
theorem accepts_iff (hb : HistogramBin) (value : Nat) :
    hb.accepts value = true ↔ hb._start ≤ value ∧ (value < hb._end ∨ value = MAXU) := by
  simp [HistogramBin.accepts]

/-- Claim C6 (code bug): the claim (and the repository's own `TestGraph`)
require each nonzero-bucket line to show the percentage share, the running
cumulative percentage, the bar, and the raw count in parentheses.  The
source's `EmitGraph` instead prints the raw count (`%10v`) *before* a
single percentage and emits neither a cumulative percentage nor a
parenthesized count.  Failing input: `NewHistogram(1, 5, 0.0)` after
`Add(0, 2)`, rendered with a nil prefix into a nil buffer.  At this input
the two float computations are exact (`2/2 = 1.0`), so the exact-rational
stand-ins `fmtPctExact`/`barWantExact` compute precisely what Go computes;
the emitted text differs from the line the claim describes. -/
theorem emitGraph_format_diverges :
    emitGraph fmtPctExact barWantExact none "" ((newHistogram 1 5 GrowthFactor.zero).Add 0 2)
      = "Histogram (2 Total)\n[0 - 5]          2  100.00% ##############################\n" ∧
    "Histogram (2 Total)\n[0 - 5]          2  100.00% ##############################\n"
      ≠ "Histogram (2 Total)\n[0 - 5]  100.00%  100.00% ############################## (2)\n" := by
  constructor
  · rfl
  · decide

/-- Claim C4, counterexample: `NewHistogram(1, 2^63, 0.0)` is a valid
construction (`numBins >= 1`, growth factor `0.0`), but the constant-width
generator's `uint64` increment wraps (`2^63 + 2^63 = 0 mod 2^64`), so the
resulting bin starts are `[0, 2^63, 0]` — not sorted ascending by start.
(The contiguity chain and the `0`/`MAX_UINT64` endpoints still hold; see
the amended theorem.) -/
theorem constructed_bins_not_sorted_counterexample :
    ((newHistogram 1 (2 ^ 63) GrowthFactor.zero)._bins.map fun b => b._start)
        = [0, 2 ^ 63, 0] ∧
    ¬ List.Chain' (· ≤ ·) ([0, 2 ^ 63, 0] : List Nat) := by
  refine ⟨by decide, fun h => ?_⟩
  rw [List.chain'_cons, List.chain'_cons] at h
  exact absurd h.2.1 (by decide)

/-- Claim C7, counterexample: `NewHistogram(1, 0, 0.0)` satisfies the
claim's hypotheses (`numBins >= 1`, growth factor `0.0`), but produces the
zero-width non-sentinel bin `[0, 0)`: its bins are `[0,0) [0,max]`, and the
first (non-sentinel) bin violates `start < end`. -/
theorem zero_width_bin_counterexample :
    ((newHistogram 1 0 GrowthFactor.zero)._bins.map fun b => (b._start, b._end))
        = [(0, 0), (0, MAXU)] ∧
    ¬ ((newHistogram 1 0 GrowthFactor.zero)._bins.dropLast.all
        fun b => decide (b._start < b._end)) = true := by
  decide

/-! ### Helper lemmas: generators and `completeBinArray` -/

theorem U64_pos : 0 < U64 := by norm_num [U64]

theorem mod_le_MAXU (x : Nat) : x % U64 ≤ MAXU := by
  have h : x % U64 < U64 := Nat.mod_lt x U64_pos
  simp only [U64, MAXU] at *
  omega

/-- The relation along contiguous bins: each bin's end is the next bin's
start. -/
def EndMeetsStart (a b : HistogramBin) : Prop := a._end = b._start

theorem genZero_chain (w n : Nat) : ∀ s, List.Chain' EndMeetsStart (genZero w s n) := by
  induction n with
  | zero => intro s; simp [genZero]
  | succ m ih =>
    intro s
    simp only [genZero]
    rw [List.chain'_cons']
    refine ⟨?_, ih _⟩
    intro y hy
    cases m with
    | zero => simp [genZero] at hy
    | succ k =>
      simp only [genZero, List.head?_cons, Option.mem_def, Option.some.injEq] at hy
      subst hy
      rfl

theorem genGrow_chain (f : Nat → Nat) (n : Nat) :
    ∀ s, List.Chain' EndMeetsStart (genGrow f s n) := by
  induction n with
  | zero => intro s; simp [genGrow]
  | succ m ih =>
    intro s
    simp only [genGrow]
    rw [List.chain'_cons']
    refine ⟨?_, ih _⟩
    intro y hy
    cases m with
    | zero => simp [genGrow] at hy
    | succ k =>
      simp only [genGrow, List.head?_cons, Option.mem_def, Option.some.injEq] at hy
      subst hy
      rfl

theorem genExp_chain (p : Nat → Nat) (n : Nat) :
    ∀ i, List.Chain' EndMeetsStart (genExp p i n) := by
  induction n with
  | zero => intro i; simp [genExp]
  | succ m ih =>
    intro i
    simp only [genExp]
    rw [List.chain'_cons']
    refine ⟨?_, ih _⟩
    intro y hy
    cases m with
    | zero => simp [genExp] at hy
    | succ k =>
      simp only [genExp, List.head?_cons, Option.mem_def, Option.some.injEq] at hy
      subst hy
      rfl

theorem genZero_mem (w n : Nat) :
    ∀ s, ∀ b ∈ genZero w s n, b._count = 0 ∧ b._end ≤ MAXU := by
  induction n with
  | zero => intro s b hb; simp [genZero] at hb
  | succ m ih =>
    intro s b hb
    simp only [genZero, List.mem_cons] at hb
    rcases hb with rfl | hb
    · exact ⟨rfl, mod_le_MAXU _⟩
    · exact ih _ b hb

theorem genGrow_mem (f : Nat → Nat) (hf : ∀ x, f x ≤ MAXU) (n : Nat) :
    ∀ s, ∀ b ∈ genGrow f s n, b._count = 0 ∧ b._end ≤ MAXU := by
  induction n with
  | zero => intro s b hb; simp [genGrow] at hb
  | succ m ih =>
    intro s b hb
    simp only [genGrow, List.mem_cons] at hb
    rcases hb with rfl | hb
    · exact ⟨rfl, hf _⟩
    · exact ih _ b hb

theorem genExp_mem (p : Nat → Nat) (hp : ∀ x, p x ≤ MAXU) (n : Nat) :
    ∀ i, ∀ b ∈ genExp p i n, b._count = 0 ∧ b._end ≤ MAXU := by
  induction n with
  | zero => intro i b hb; simp [genExp] at hb
  | succ m ih =>
    intro i b hb
    simp only [genExp, List.mem_cons] at hb
    rcases hb with rfl | hb
    · exact ⟨rfl, hp _⟩
    · exact ih _ b hb

theorem genZero_length (w n : Nat) : ∀ s, (genZero w s n).length = n := by
  induction n with
  | zero => intro s; rfl
  | succ m ih => intro s; simp [genZero, ih]

theorem genGrow_length (f : Nat → Nat) (n : Nat) : ∀ s, (genGrow f s n).length = n := by
  induction n with
  | zero => intro s; rfl
  | succ m ih => intro s; simp [genGrow, ih]

theorem genExp_length (p : Nat → Nat) (n : Nat) : ∀ i, (genExp p i n).length = n := by
  induction n with
  | zero => intro i; rfl
  | succ m ih => intro i; simp [genExp, ih]

theorem mulBins_chain (w : Nat) (gf : GrowthFactor) (n : Nat) :
    List.Chain' EndMeetsStart (mulBins w gf n) := by
  cases gf with
  | zero => exact genZero_chain w n w
  | growth f =>
    cases n with
    | zero => simp [mulBins]
    | succ m =>
      simp only [mulBins]
      rw [List.chain'_cons']
      refine ⟨?_, genGrow_chain f m w⟩
      intro y hy
      cases m with
      | zero => simp [genGrow] at hy
      | succ k =>
        simp only [genGrow, List.head?_cons, Option.mem_def, Option.some.injEq] at hy
        subst hy
        rfl

theorem mulBins_mem (w : Nat) (gf : GrowthFactor) (hgf : gfValid gf) (n : Nat) :
    ∀ b ∈ mulBins w gf n, b._count = 0 ∧ b._end ≤ MAXU := by
  cases gf with
  | zero => exact genZero_mem w n w
  | growth f =>
    cases n with
    | zero => intro b hb; simp [mulBins] at hb
    | succ m =>
      intro b hb
      simp only [mulBins, List.mem_cons] at hb
      rcases hb with rfl | hb
      · exact ⟨rfl, hgf _⟩
      · exact genGrow_mem f hgf m w b hb

theorem mulBins_length (w : Nat) (gf : GrowthFactor) (n : Nat) :
    (mulBins w gf n).length = n := by
  cases gf with
  | zero => exact genZero_length w n w
  | growth f =>
    cases n with
    | zero => rfl
    | succ m => simp [mulBins, genGrow_length]

theorem prependFirstBin_spec (b : HistogramBin) (bs : List HistogramBin)
    (hchain : List.Chain' EndMeetsStart (b :: bs)) :
    ((prependFirstBin (b :: bs)).head?.map fun x => x._start) = some 0 ∧
    List.Chain' EndMeetsStart (prependFirstBin (b :: bs)) ∧
    (prependFirstBin (b :: bs)).getLast? = (b :: bs).getLast? ∧
    prependFirstBin (b :: bs) ≠ [] := by
  simp only [prependFirstBin]
  by_cases hb0 : 0 < b._start
  · rw [if_pos hb0]
    refine ⟨rfl, ?_, List.getLast?_cons_cons, by simp⟩
    rw [List.chain'_cons]
    exact ⟨rfl, hchain⟩
  · rw [if_neg hb0]
    exact ⟨by simp [Nat.eq_zero_of_not_pos hb0], hchain, rfl, by simp⟩

theorem appendLastBin_spec (c : HistogramBin) (cs : List HistogramBin)
    (hchain : List.Chain' EndMeetsStart (c :: cs))
    (hlast : ∀ bl, (c :: cs).getLast? = some bl → bl._end ≤ MAXU) :
    (appendLastBin (c :: cs)).head? = some c ∧
    List.Chain' EndMeetsStart (appendLastBin (c :: cs)) ∧
    ((appendLastBin (c :: cs)).getLast?.map fun x => x._end) = some MAXU := by
  obtain ⟨bl, hbl⟩ : ∃ bl, (c :: cs).getLast? = some bl :=
    Option.isSome_iff_exists.mp ((List.getLast?_isSome).mpr (by simp))
  simp only [appendLastBin, hbl]
  by_cases hlt : bl._end < MAXU
  · rw [if_pos hlt]
    refine ⟨rfl, ?_, ?_⟩
    · rw [List.chain'_append]
      refine ⟨hchain, List.chain'_singleton _, ?_⟩
      intro x hx y hy
      simp only [hbl, Option.mem_def, Option.some.injEq] at hx
      simp only [List.head?_cons, Option.mem_def, Option.some.injEq] at hy
      subst hx; subst hy
      rfl
    · rw [List.getLast?_concat]
      rfl
  · rw [if_neg hlt]
    have hble : bl._end ≤ MAXU := hlast bl hbl
    have hbe : bl._end = MAXU := le_antisymm hble (not_lt.mp hlt)
    exact ⟨rfl, hchain, by rw [hbl]; simp [hbe]⟩

theorem completeBinArray_spec (l : List HistogramBin) (hne : l ≠ [])
    (hchain : List.Chain' EndMeetsStart l)
    (hends : ∀ b ∈ l, b._end ≤ MAXU) :
    (((completeBinArray l).head?.map fun x => x._start) = some 0) ∧
    List.Chain' EndMeetsStart (completeBinArray l) ∧
    (((completeBinArray l).getLast?.map fun x => x._end) = some MAXU) := by
  obtain ⟨b, bs, rfl⟩ := List.exists_cons_of_ne_nil hne
  obtain ⟨hhead, hchain1, hlast1, hne1⟩ := prependFirstBin_spec b bs hchain
  obtain ⟨c, cs, hcs⟩ := List.exists_cons_of_ne_nil hne1
  have hlastle : ∀ bl, (prependFirstBin (b :: bs)).getLast? = some bl → bl._end ≤ MAXU := by
    intro bl hbl
    rw [hlast1] at hbl
    exact hends bl (List.mem_of_mem_getLast? hbl)
  rw [hcs] at hchain1 hlastle
  obtain ⟨ah, ac, al⟩ := appendLastBin_spec c cs hchain1 hlastle
  have hcomp : completeBinArray (b :: bs) = appendLastBin (c :: cs) := by
    simp only [completeBinArray, hcs]
  rw [hcomp]
  refine ⟨?_, ac, al⟩
  rw [ah]
  rw [hcs] at hhead
  simpa using hhead

theorem completeBinArray_counts (l : List HistogramBin)
    (hc : ∀ b ∈ l, b._count = 0) : ∀ b ∈ completeBinArray l, b._count = 0 := by
  have hpre : ∀ b ∈ prependFirstBin l, b._count = 0 := by
    intro b hb
    cases l with
    | nil => simp [prependFirstBin] at hb
    | cons x xs =>
      simp only [prependFirstBin] at hb
      by_cases hx0 : 0 < x._start
      · rw [if_pos hx0] at hb
        rcases List.mem_cons.mp hb with rfl | hb
        · rfl
        · exact hc b hb
      · rw [if_neg hx0] at hb
        exact hc b hb
  intro b hb
  simp only [completeBinArray, appendLastBin] at hb
  split at hb
  · exact hpre b hb
  · split at hb
    · rcases List.mem_append.mp hb with hb | hb
      · exact hpre b hb
      · simp only [List.mem_singleton] at hb
        subst hb
        rfl
    · exact hpre b hb

theorem completeBinArray_ne_nil (l : List HistogramBin) (hne : l ≠ []) :
    completeBinArray l ≠ [] := by
  have hne1 : prependFirstBin l ≠ [] := by
    obtain ⟨b, bs, rfl⟩ := List.exists_cons_of_ne_nil hne
    simp only [prependFirstBin]
    by_cases hb0 : 0 < b._start
    · rw [if_pos hb0]; simp
    · rw [if_neg hb0]; simp
  simp only [completeBinArray, appendLastBin]
  split
  · exact hne1
  · split
    · simp
    · exact hne1

/-- Claim C4 as amended: every histogram produced by one of the three
constructors (with `numBins >= 1` and well-typed `uint64` parameters) has a
contiguous, total bin sequence — the first bin starts at `0`, each bin's
end equals the next bin's start, and the last bin ends at `MAX_UINT64`.
(The claim's additional "sorted ascending by start" can fail when the
generator's `uint64` boundary arithmetic wraps; see the counterexample.) -/
theorem constructed_bins_contiguous_total (h : Histogram) (hc : Constructed h) :
    ((h._bins.head?.map fun x => x._start) = some 0) ∧
    List.Chain' EndMeetsStart h._bins ∧
    ((h._bins.getLast?.map fun x => x._end) = some MAXU) := by
  cases hc with
  | mul numBins binFirst gf hn hb hgf =>
    simp only [newHistogram]
    exact completeBinArray_spec _
      (List.length_pos.mp (by rw [mulBins_length]; omega))
      (mulBins_chain _ _ _)
      (fun b hb' => (mulBins_mem _ _ hgf _ b hb').2)
  | exp name numBins p hn hp =>
    simp only [newExpHistogram]
    exact completeBinArray_spec _
      (List.length_pos.mp (by rw [genExp_length]; omega))
      (genExp_chain _ _ _)
      (fun b hb' => (genExp_mem _ hp _ _ b hb').2)
  | cb p2 name n hn hp =>
    simp only [newCbHistogram]
    exact completeBinArray_spec _
      (List.length_pos.mp (by rw [genExp_length]; omega))
      (genExp_chain _ _ _)
      (fun b hb' => (genExp_mem _ hp _ _ b hb').2)

/-- Witness for the amended C4 theorem at `NewHistogram(2, 10, 0.0)`. -/
theorem constructed_bins_contiguous_total_witness :
    (((newHistogram 2 10 GrowthFactor.zero)._bins.head?.map fun x => x._start) = some 0) ∧
    List.Chain' EndMeetsStart (newHistogram 2 10 GrowthFactor.zero)._bins ∧
    (((newHistogram 2 10 GrowthFactor.zero)._bins.getLast?.map fun x => x._end) = some MAXU) :=
  constructed_bins_contiguous_total _
    (Constructed.mul 2 10 GrowthFactor.zero (by decide) (by decide) trivial)

/-! ### Helper lemmas: positive bin widths -/

theorem genZero_pos (w : Nat) (hw : 1 ≤ w) (n : Nat) :
    ∀ s, s + n * w ≤ MAXU → ∀ b ∈ genZero w s n, b._start < b._end := by
  induction n with
  | zero => intro s _ b hb; simp [genZero] at hb
  | succ m ih =>
    intro s hsw b hb
    obtain ⟨t, ht⟩ : ∃ t, m * w = t := ⟨_, rfl⟩
    have hexp : s + (t + w) ≤ MAXU := by
      have hmul : (m + 1) * w = m * w + w := by ring
      rw [hmul, ht] at hsw
      omega
    have hmod : (s + w) % U64 = s + w :=
      Nat.mod_eq_of_lt (by simp only [U64, MAXU] at *; omega)
    simp only [genZero, List.mem_cons] at hb
    rcases hb with rfl | hb
    · show s < (s + w) % U64
      rw [hmod]
      omega
    · exact ih ((s + w) % U64) (by rw [hmod, ht]; omega) b hb

theorem genGrow_pos (f : Nat → Nat) (hstep : ∀ x, 1 ≤ x → x < f x) (n : Nat) :
    ∀ s, 1 ≤ s → ∀ b ∈ genGrow f s n, b._start < b._end := by
  induction n with
  | zero => intro s _ b hb; simp [genGrow] at hb
  | succ m ih =>
    intro s hs b hb
    have h1 : s < f s := hstep s hs
    have h2 : 1 ≤ f s := by omega
    simp only [genGrow, List.mem_cons] at hb
    rcases hb with rfl | hb
    · exact hstep (f s) h2
    · exact ih (f s) h2 b hb

theorem completeBinArray_dropLast_pos (l : List HistogramBin)
    (hpos : ∀ b ∈ l, b._start < b._end) :
    ∀ b ∈ (completeBinArray l).dropLast, b._start < b._end := by
  have hpre : ∀ b ∈ prependFirstBin l, b._start < b._end := by
    intro b hb
    cases l with
    | nil => simp [prependFirstBin] at hb
    | cons x xs =>
      simp only [prependFirstBin] at hb
      by_cases hx0 : 0 < x._start
      · rw [if_pos hx0] at hb
        rcases List.mem_cons.mp hb with rfl | hb
        · exact hx0
        · exact hpos b hb
      · rw [if_neg hx0] at hb
        exact hpos b hb
  intro b hb
  simp only [completeBinArray, appendLastBin] at hb
  split at hb
  · exact hpre b ((List.dropLast_sublist _).subset hb)
  · split at hb
    · rw [List.dropLast_concat] at hb
      exact hpre b hb
    · exact hpre b ((List.dropLast_sublist _).subset hb)

/-- Claim C7 as amended: every non-sentinel bin of a `NewHistogram` result
has `start < end`, provided the generator's boundary steps strictly
increase without wrapping (`StrictSteps`); the counterexample shows the
extra hypothesis is needed (`binFirst = 0` already violates the claim as
stated). -/
theorem bins_positive_width_of_strict (numBins binFirst : Nat) (gf : GrowthFactor)
    (hn : 1 ≤ numBins) (hs : StrictSteps numBins binFirst gf) :
    ∀ b ∈ (newHistogram numBins binFirst gf)._bins.dropLast, b._start < b._end := by
  simp only [newHistogram]
  apply completeBinArray_dropLast_pos
  cases gf with
  | zero =>
    obtain ⟨hw, hnw⟩ := hs
    refine genZero_pos binFirst hw numBins binFirst ?_
    obtain ⟨t, ht⟩ : ∃ t, numBins * binFirst = t := ⟨_, rfl⟩
    have hmul : (numBins + 1) * binFirst = numBins * binFirst + binFirst := by ring
    rw [hmul, ht] at hnw
    omega
  | growth f =>
    obtain ⟨hw, hstep⟩ := hs
    obtain ⟨m, rfl⟩ : ∃ m, numBins = m + 1 := ⟨numBins - 1, by omega⟩
    intro b hb
    simp only [mulBins, List.mem_cons] at hb
    rcases hb with rfl | hb
    · exact (hstep binFirst hw).1
    · exact genGrow_pos f (fun x hx => (hstep x hx).1) m binFirst hw b hb

/-- Witness for the amended C7 theorem at `NewHistogram(2, 10, 0.0)`. -/
theorem bins_positive_width_of_strict_witness :
    ((newHistogram 2 10 GrowthFactor.zero)._bins.dropLast.all
      fun b => decide (b._start < b._end)) = true := by
  rw [List.all_eq_true]
  intro b hb
  exact decide_eq_true
    (bins_positive_width_of_strict 2 10 GrowthFactor.zero (by decide)
      ⟨by decide, by decide⟩ b hb)

/-! ### Helper lemmas: `Add`, `Total` and count sums -/

theorem total_foldl (l : List HistogramBin) :
    ∀ a, a < U64 →
      l.foldl (fun x b => (x + b._count) % U64) a = (a + (l.map fun b => b._count).sum) % U64 := by
  induction l with
  | nil => intro a ha; simp [Nat.mod_eq_of_lt ha]
  | cons b t ih =>
    intro a ha
    simp only [List.foldl_cons, List.map_cons, List.sum_cons]
    rw [ih _ (Nat.mod_lt _ U64_pos), Nat.mod_add_mod]
    ring_nf

theorem total_eq_sum_mod (gh : Histogram) :
    gh.Total = (gh._bins.map fun b => b._count).sum % U64 := by
  rw [Histogram.Total, total_foldl _ 0 U64_pos, Nat.zero_add]

theorem total_lt (gh : Histogram) : gh.Total < U64 := by
  rw [total_eq_sum_mod]
  exact Nat.mod_lt _ U64_pos

theorem incrAt_length (l : List HistogramBin) :
    ∀ i k, (incrAt l i k).length = l.length := by
  induction l with
  | nil => intro i k; rfl
  | cons b t ih =>
    intro i k
    cases i with
    | zero => rfl
    | succ j => simp [incrAt, ih]

theorem incrAt_sum_mod (l : List HistogramBin) :
    ∀ i k, i < l.length →
      ((incrAt l i k).map fun b => b._count).sum % U64
        = ((l.map fun b => b._count).sum + k) % U64 := by
  induction l with
  | nil => intro i k hi; simp at hi
  | cons b t ih =>
    intro i k hi
    cases i with
    | zero =>
      simp only [incrAt, List.map_cons, List.sum_cons]
      rw [Nat.mod_add_mod]
      ring_nf
    | succ j =>
      simp only [incrAt, List.map_cons, List.sum_cons]
      have hj : j < t.length := by simpa using hi
      have hrec := ih j k hj
      rw [Nat.add_mod, hrec, ← Nat.add_mod, ← Nat.add_assoc]

theorem findBinIdx_lt (bins : List HistogramBin) (hne : bins ≠ []) (amount : Nat) :
    findBinIdx bins amount < bins.length := by
  have hlen : 0 < bins.length := List.length_pos.mpr hne
  simp only [findBinIdx]
  split
  · omega
  · split
    · split
      · rename_i b hsome _
        exact (List.getElem?_eq_some.mp hsome).1
      · omega
    · omega

theorem Add_total (gh : Histogram) (hne : gh._bins ≠ []) (a c : Nat) :
    (gh.Add a c).Total = (gh.Total + c) % U64 := by
  have hbins : (gh.Add a c)._bins = incrAt gh._bins (findBinIdx gh._bins a) c := rfl
  rw [total_eq_sum_mod, total_eq_sum_mod, hbins,
    incrAt_sum_mod _ _ _ (findBinIdx_lt _ hne a), Nat.mod_add_mod]

theorem applyAdds_total (l : List (Nat × Nat)) :
    ∀ gh : Histogram, gh._bins ≠ [] →
      (applyAdds gh l).Total = (gh.Total + sumCounts l) % U64 := by
  induction l with
  | nil =>
    intro gh hne
    simp [applyAdds, sumCounts, Nat.mod_eq_of_lt (total_lt gh)]
  | cons ac rest ih =>
    intro gh hne
    obtain ⟨a, c⟩ := ac
    have hne2 : (gh.Add a c)._bins ≠ [] := by
      have hl : (gh.Add a c)._bins.length = gh._bins.length := incrAt_length _ _ _
      rw [← List.length_pos, hl, List.length_pos]
      exact hne
    rw [applyAdds, ih _ hne2, Add_total gh hne a c, Nat.mod_add_mod]
    have hsum : sumCounts ((a, c) :: rest) = c + sumCounts rest := by simp [sumCounts]
    rw [hsum, ← Nat.add_assoc]

theorem constructed_counts_zero (h : Histogram) (hc : Constructed h) :
    ∀ b ∈ h._bins, b._count = 0 := by
  cases hc with
  | mul numBins binFirst gf hn hb hgf =>
    simp only [newHistogram]
    exact completeBinArray_counts _ fun b hb' => (mulBins_mem _ _ hgf _ b hb').1
  | exp name numBins p hn hp =>
    simp only [newExpHistogram]
    exact completeBinArray_counts _ fun b hb' => (genExp_mem _ hp _ _ b hb').1
  | cb p2 name n hn hp =>
    simp only [newCbHistogram]
    exact completeBinArray_counts _ fun b hb' => (genExp_mem _ hp _ _ b hb').1

theorem constructed_ne_nil (h : Histogram) (hc : Constructed h) : h._bins ≠ [] := by
  cases hc with
  | mul numBins binFirst gf hn hb hgf =>
    simp only [newHistogram]
    exact completeBinArray_ne_nil _ (List.length_pos.mp (by rw [mulBins_length]; omega))
  | exp name numBins p hn hp =>
    simp only [newExpHistogram]
    exact completeBinArray_ne_nil _ (List.length_pos.mp (by rw [genExp_length]; omega))
  | cb p2 name n hn hp =>
    simp only [newCbHistogram]
    exact completeBinArray_ne_nil _ (List.length_pos.mp (by rw [genExp_length]; omega))

theorem constructed_total_zero (h : Histogram) (hc : Constructed h) : h.Total = 0 := by
  have hz : (h._bins.map fun b => b._count).sum = 0 := by
    apply List.sum_eq_zero
    intro x hx
    obtain ⟨b, hb, rfl⟩ := List.mem_map.mp hx
    exact constructed_counts_zero h hc b hb
  rw [total_eq_sum_mod, hz, Nat.zero_mod]

/-- Claim C3: for every constructor-produced histogram and every finite
sequence of `Add(value, count)` calls whose `count` arguments sum below
`2 ^ 64` (larger sums wrap, see the claim-C9 theorem), `Total()` afterwards
equals the sum of all `count` arguments passed. -/
theorem total_eq_sum_of_counts (h : Histogram) (hc : Constructed h)
    (l : List (Nat × Nat)) (hs : sumCounts l < U64) :
    (applyAdds h l).Total = sumCounts l := by
  rw [applyAdds_total l h (constructed_ne_nil h hc), constructed_total_zero h hc,
    Nat.zero_add, Nat.mod_eq_of_lt hs]

/-- Witness for the claim-C3 theorem: two `Add` calls of counts 2 and 4 on
`NewHistogram(1, 1, 0.0)` give `Total() = 6`. -/
theorem total_eq_sum_of_counts_witness :
    (applyAdds (newHistogram 1 1 GrowthFactor.zero) [(0, 2), (3, 4)]).Total = 6 := by
  have h := total_eq_sum_of_counts (newHistogram 1 1 GrowthFactor.zero)
    (Constructed.mul 1 1 GrowthFactor.zero (by decide) (by decide) trivial)
    [(0, 2), (3, 4)] (by decide)
  rw [h]
  decide

/-- Claim C9: bin counters are `uint64` values that wrap modulo `2 ^ 64`:
`Add` never fails or saturates (it is a total function in this embedding),
and when the `count` arguments sum to `2 ^ 64` or more, `Total()` equals
the sum of the `count` arguments modulo `2 ^ 64`. -/
theorem total_wraps_mod_2_64 (h : Histogram) (hc : Constructed h)
    (l : List (Nat × Nat)) (hs : U64 ≤ sumCounts l) :
    (applyAdds h l).Total = sumCounts l % U64 := by
  rw [applyAdds_total l h (constructed_ne_nil h hc), constructed_total_zero h hc, Nat.zero_add]

/-- Witness for the claim-C9 theorem: counts `2^64 - 1` and `1` sum to
`2^64`, and `Total()` wraps to `0`. -/
theorem total_wraps_mod_2_64_witness :
    (applyAdds (newHistogram 1 1 GrowthFactor.zero) [(0, U64 - 1), (0, 1)]).Total = 0 := by
  have h := total_wraps_mod_2_64 (newHistogram 1 1 GrowthFactor.zero)
    (Constructed.mul 1 1 GrowthFactor.zero (by decide) (by decide) trivial)
    [(0, U64 - 1), (0, 1)] (by decide)
  rw [h]
  decide

/-! ### Helper lemmas: `EmitGraph` on an all-zero histogram -/

theorem foldl_total_zero (l : List HistogramBin) :
    ∀ a, a < U64 → (∀ b ∈ l, b._count = 0) →
      l.foldl (fun x b => (x + b._count) % U64) a = a := by
  induction l with
  | nil => intro a ha _; rfl
  | cons b t ih =>
    intro a ha hz
    have hb0 : b._count = 0 := hz b (by simp)
    simp only [List.foldl_cons, hb0, Nat.add_zero, Nat.mod_eq_of_lt ha]
    exact ih a ha fun x hx => hz x (by simp [hx])

theorem foldl_congr_skip (l : List HistogramBin) (F : String → HistogramBin → String)
    (hF : ∀ acc b, b._count = 0 → F acc b = acc) :
    ∀ acc, (∀ b ∈ l, b._count = 0) → l.foldl F acc = acc := by
  induction l with
  | nil => intro acc _; rfl
  | cons b t ih =>
    intro acc hz
    have hb0 : b._count = 0 := hz b (by simp)
    simp only [List.foldl_cons, hF acc b hb0]
    exact ih acc fun x hx => hz x (by simp [hx])

theorem string_empty_append (s : String) : "" ++ s = s := by
  cases s
  rfl

/-- Claim C10: on a well-formed histogram whose bin counts are all zero,
`EmitGraph(prefix, nil)` returns exactly the header line
`"<name> (0 Total)\n"` and no bucket lines.  The float divisions (the `pf`
and `bw` parameters) occur only in the suppressed nonzero-count branch:
the output is the same for *every* `pf` and `bw`, so they are never
evaluated — in particular never with the zero `totalCount`/`maxCount`
divisors. -/
theorem emitGraph_zero_total_header_only (pf : Nat → Nat → String) (bw : Nat → Nat → Nat)
    (pre : Option String) (gh : Histogram)
    (hz : ∀ b ∈ gh._bins, b._count = 0) (hv : gh.verify = true) :
    emitGraph pf bw pre "" gh = gh._name ++ " (0 Total)\n" := by
  simp only [emitGraph]
  have htot : gh._bins.foldl (fun a b => (a + b._count) % U64) 0 = 0 :=
    foldl_total_zero gh._bins 0 U64_pos hz
  rw [htot]
  refine Eq.trans (foldl_congr_skip gh._bins _ ?_ _ hz) ?_
  · intro acc b hb0
    simp [hb0]
  · have h0 : toString (0 : Nat) = "0" := rfl
    rw [h0, string_empty_append, String.append_assoc, String.append_assoc]
    have hlit : (" (" ++ ("0" ++ " Total)\n") : String) = " (0 Total)\n" := by decide
    rw [hlit]

/-- Witness for the claim-C10 theorem at `NewHistogram(1, 10, 0.0)` (all
counts zero) with prefix `"- "`. -/
theorem emitGraph_zero_total_header_only_witness :
    emitGraph fmtPctExact barWantExact (some "- ") "" (newHistogram 1 10 GrowthFactor.zero)
      = (newHistogram 1 10 GrowthFactor.zero)._name ++ " (0 Total)\n" :=
  emitGraph_zero_total_header_only fmtPctExact barWantExact (some "- ")
    (newHistogram 1 10 GrowthFactor.zero) (by decide) (by decide)

/-! ### Helper lemmas: the histogram map -/

theorem lookup_insertH_of_ne (k' : String) (v : HistogramRC) (k : String) (hk : k ≠ k') :
    ∀ m : Histograms, List.lookup k (insertH m k' v) = List.lookup k m := by
  intro m
  induction m with
  | nil =>
    simp only [insertH, List.lookup_cons, beq_false_of_ne hk]
  | cons p t ih =>
    obtain ⟨a, b⟩ := p
    simp only [insertH]
    by_cases ha : a = k'
    · rw [if_pos ha]
      subst ha
      simp only [List.lookup_cons, beq_false_of_ne hk]
    · rw [if_neg ha]
      simp only [List.lookup_cons]
      cases hka : (k == a) with
      | false => exact ih
      | true => rfl

theorem phase1_error_preserves :
    ∀ (src m : Histograms) (pe : Histograms × String),
      phase1 m src = .error pe →
      ∀ (k : String) (h : HistogramRC),
        List.lookup k m = some h → List.lookup k pe.1 = some h := by
  intro src
  induction src with
  | nil => intro m pe hp; simp [phase1] at hp
  | cons p rest ih =>
    intro m pe hp k h hk
    obtain ⟨k1, v⟩ := p
    simp only [phase1] at hp
    split at hp
    · rename_i hl
      have hne : k ≠ k1 := by
        intro hkk
        subst hkk
        rw [hk] at hl
        exact Option.noConfusion hl
      exact ih _ pe hp k h (by rw [lookup_insertH_of_ne k1 v.CloneEmpty k hne m]; exact hk)
    · split at hp
      · injection hp with h1
        rw [← h1]
        exact hk
      · split at hp
        · exact ih m pe hp k h hk
        · injection hp with h1
          rw [← h1]
          exact hk

/-- Claim C8 as amended: when the set-level `Histograms.AddAll` returns a
structural-mismatch error, no *existing* destination entry has been
touched — every name already in the destination still maps to exactly the
histogram it had (in particular no bin count changed) — but, as the
counterexample shows, fresh empty entries may already have been inserted
for names that were absent. -/
theorem map_addAll_preserves_existing_on_error (dst src : Histograms) (e : String)
    (he : (Histograms.AddAll dst src).2 = some e) (k : String) (h : HistogramRC)
    (hk : List.lookup k dst = some h) :
    List.lookup k (Histograms.AddAll dst src).1 = some h := by
  unfold Histograms.AddAll at he ⊢
  cases hp : phase1 dst src with
  | ok m =>
    rw [hp] at he
    simp at he
  | error pe =>
    obtain ⟨m, e'⟩ := pe
    exact phase1_error_preserves src dst (m, e') hp k h hk

/-- Claim C8, counterexample: destination `{"b" ↦ (Ranges [0,10], Counts
[1,2])}` merged with source `{"a" ↦ ..., "b" ↦ (Ranges [0], Counts [9])}`
(iterated in that order — Go map order is unspecified, so this order is a
possible execution): the absent name `"a"` is inserted *before* the
incompatible `"b"` aborts the operation, so the call both returns the
mismatch error and leaves a new `"a"` entry in the destination map. -/
theorem map_addAll_inserts_on_error_counterexample :
    (Histograms.AddAll [("b", ⟨"b", [0, 10], [1, 2]⟩)]
        [("a", ⟨"a", [0], [3]⟩), ("b", ⟨"b", [0], [9]⟩)]).2
      = some "Mismatch in histogram creation parameters" ∧
    List.lookup "a" ([("b", ⟨"b", [0, 10], [1, 2]⟩)] : Histograms) = none ∧
    (List.lookup "a" (Histograms.AddAll [("b", ⟨"b", [0, 10], [1, 2]⟩)]
        [("a", ⟨"a", [0], [3]⟩), ("b", ⟨"b", [0], [9]⟩)]).1).isSome = true := by
  decide

/-- Witness for the amended C8 theorem: on the counterexample input, the
pre-existing `"b"` entry is returned unchanged. -/
theorem map_addAll_preserves_existing_on_error_witness :
    List.lookup "b" (Histograms.AddAll [("b", ⟨"b", [0, 10], [1, 2]⟩)]
        [("a", ⟨"a", [0], [3]⟩), ("b", ⟨"b", [0], [9]⟩)]).1
      = some ⟨"b", [0, 10], [1, 2]⟩ :=
  map_addAll_preserves_existing_on_error [("b", ⟨"b", [0, 10], [1, 2]⟩)]
    [("a", ⟨"a", [0], [3]⟩), ("b", ⟨"b", [0], [9]⟩)]
    "Mismatch in histogram creation parameters" (by decide) "b" ⟨"b", [0, 10], [1, 2]⟩
    (by decide)

end GHistogram
